import Mathlib

/-!
# Formal model of `project_concatenator.py`

A shallow embedding of the project-concatenator utility: it walks a directory
tree, selects files matching configured type patterns, concatenates their
contents into one annotated output artifact and appends an ASCII tree of the
included files.

Modelling conventions:
* A filesystem path is modelled as its list of `os.sep`-separated components,
  mirroring `os.path.abspath(path).split(os.sep)` in the source.  An absolute
  path starts with the empty component (as `"/a/b".split("/") = ["", "a", "b"]`
  in Python); a relative path does not.  `os.path.join(root, name)` for a bare
  entry name is `root ++ [name]`, and the spelled-out string of a path is
  `String.intercalate "/" p`.  Input paths are assumed slash-normalised
  (no `.`/`..` components), which is the only case the program exercises.
* The directory tree reachable from the base path is an inductive tree `FS`;
  file contents are `Except String String` so that a failing read
  (permission/decode error) is an `.error msg`, mirroring the `try/except`
  in `create_aggregated_file`.
* `os.walk` on a missing path silently yields nothing (its errors are
  swallowed), while `os.listdir` raises `FileNotFoundError` /
  `NotADirectoryError`; `runMain` therefore takes an `Option FS` (`none` =
  base path does not exist) and returns either the final artifact content
  plus the printed confirmation line, or the raised exception's name
  together with the output file's content at the moment of the crash.
-/

/-- A filesystem path, as its list of separator-split components. -/
abbrev FPath := List String

/-- The spelled-out string of a path (inverse of splitting on `os.sep`). -/
def pathStr (p : FPath) : String := String.intercalate "/" p

/-- `os.path.basename`: the final path component. -/
def basename (p : FPath) : String := p.getLastD ""

/-- A path is absolute iff its spelling starts with the separator,
i.e. its first split component is empty. -/
def isAbsolute (p : FPath) : Bool := p.head? == some ""

/-- `os.path.abspath`: resolve a relative path against the working directory
(inputs are assumed already normalised). -/
def abspath (cwd p : FPath) : FPath := if isAbsolute p then p else cwd ++ p

/-- Directories to exclude anywhere in the path (`EXCLUDED_DIRS` in the source). -/
def EXCLUDED_DIRS : List String := [".git", ".idea", ".terraform"]

/-- `has_excluded_dir(path_str, excluded_dirs)`: true iff any component of
`os.path.abspath(path_str)` equals one of the excluded directory names. -/
def has_excluded_dir (cwd : FPath) (path_str : FPath) (excluded_dirs : List String) : Bool :=
  (abspath cwd path_str).any (fun part => excluded_dirs.any (fun ex => part == ex))

/-- The directory tree at a given filesystem location: a file with its
(readable or unreadable) content, or a directory with its listing. -/
inductive FS where
  | file (content : Except String String)
  | dir (entries : List (String × FS))

/-- `os.path.isdir` on an existing entry. -/
def FS.isDir : FS → Bool
  | .dir _ => true
  | .file _ => false

/-- The non-directory entry names of a directory listing, in listing order
(the `files` component of an `os.walk` item). -/
def fileNames (es : List (String × FS)) : List String :=
  es.filterMap (fun e => if e.2.isDir then none else some e.1)

mutual
/-- `os.walk(p)` (top-down): yields `(root, files)` for the directory itself,
then recursively for every subdirectory in listing order.  The `dirnames`
component is ignored by the source, so it is not modelled. -/
def osWalk (p : FPath) : FS → List (FPath × List String)
  | .file _ => []
  | .dir es => (p, fileNames es) :: osWalkList p es
termination_by t => sizeOf t
decreasing_by simp

/-- The recursive part of `os.walk`: walk each subdirectory entry in order. -/
def osWalkList (p : FPath) : List (String × FS) → List (FPath × List String)
  | [] => []
  | e :: es => (if e.2.isDir then osWalk (p ++ [e.1]) e.2 else []) ++ osWalkList p es
termination_by es => sizeOf es
decreasing_by
  · cases e with | mk n s => simp; omega
  · simp
end

/-- The `os.walk` item list that `search_files` iterates over: walking a
missing base path (or a base path that is a plain file) silently yields
nothing, because `os.walk` swallows the listing error. -/
def walkOf (base_path : FPath) : Option FS → List (FPath × List String)
  | some t => osWalk base_path t
  | none => []

/-- Python string comparison (`<` on `str`): lexicographic on code points. -/
def charsLt : List Char → List Char → Bool
  | [], [] => false
  | [], _ :: _ => true
  | _ :: _, [] => false
  | a :: as, b :: bs =>
    if a.val < b.val then true else if b.val < a.val then false else charsLt as bs

/-- `p < q` on the spelled-out path strings, as Python's `list.sort()` compares them. -/
def pathLt (p q : FPath) : Bool := charsLt (pathStr p).toList (pathStr q).toList

/-- Insert a path into an already sorted list (ascending by `pathLt`). -/
def insertSorted (x : FPath) : List FPath → List FPath
  | [] => [x]
  | y :: ys => if pathLt y x then y :: insertSorted x ys else x :: y :: ys

/-- `file_list.sort()`: sort a list of paths ascending by their spelling. -/
def sortPaths : List FPath → List FPath
  | [] => []
  | x :: xs => insertSorted x (sortPaths xs)

/-- The per-file type test of `search_files`:
`file.endswith(f".{file_type}") or file == file_type`. -/
def matchesType (file : String) (file_type : String) : Bool :=
  List.isSuffixOf ("." ++ file_type).toList file.toList || file == file_type

/-- The body of the inner `for file in files` loop of `search_files`: skip the
file if it is in `exclude_files` or under an excluded directory, otherwise
append its path to the group of every file type it matches (the source has no
`break`, so each matching pattern index receives the file). -/
def fileStep (cwd : FPath) (file_types : List String) (exclude_files : List FPath)
    (root : FPath) (acc : List (List FPath)) (file : String) : List (List FPath) :=
  let file_path := root ++ [file]
  if exclude_files.contains file_path || has_excluded_dir cwd file_path EXCLUDED_DIRS then acc
  else
    List.zipWith
      (fun group file_type => if matchesType file file_type then group ++ [file_path] else group)
      acc file_types

/-- The body of the outer `for root, _, files in os.walk(base_path)` loop of
`search_files`: skip the whole directory if it is under an excluded path. -/
def rootStep (cwd : FPath) (file_types : List String) (exclude_files : List FPath)
    (acc : List (List FPath)) (rootFiles : FPath × List String) : List (List FPath) :=
  if has_excluded_dir cwd rootFiles.1 EXCLUDED_DIRS then acc
  else rootFiles.2.foldl (fileStep cwd file_types exclude_files rootFiles.1) acc

/-- `search_files(base_path, file_types, exclude_files)`: one group of file
paths per configured file type, each group sorted by path spelling. -/
def search_files (cwd base_path : FPath) (fs : Option FS) (file_types : List String)
    (exclude_files : List FPath) : List (List FPath) :=
  (((walkOf base_path fs).foldl (rootStep cwd file_types exclude_files)
      (file_types.map (fun _ => []))).map sortPaths)

/-- `"-" * n`. -/
def dashes (n : Nat) : String := String.mk (List.replicate n '-')

/-- What `create_aggregated_file` writes for one selected file: on a
successful read, the 60-dash delimiter, the `File Path`/`File Name` header,
a blank line and the content with a trailing newline; if opening or reading
raises, only the single `Error reading ...` line (the header writes sit
after the read inside the `try`, so they are skipped too). -/
def entry_block (read_file : FPath → Except String String) (file_path : FPath) : String :=
  match read_file file_path with
  | .ok content =>
      dashes 60 ++ "\n" ++ "File Path = " ++ pathStr file_path ++ "\n" ++
        "File Name = " ++ basename file_path ++ "\n\n" ++ content ++ "\n"
  | .error e => "Error reading " ++ pathStr file_path ++ ": " ++ e ++ "\n"

/-- Sequential writes modelled as string concatenation. -/
def concatStrings (l : List String) : String := l.foldr (· ++ ·) ""

/-- `create_aggregated_file(files_by_type, output_file)`: the content the
output file holds after the truncating write stage — the entry blocks of all
files, group by group. -/
def create_aggregated_file (files_by_type : List (List FPath))
    (read_file : FPath → Except String String) : String :=
  concatStrings (files_by_type.map (fun file_list =>
    concatStrings (file_list.map (entry_block read_file))))

/-- The filter of `walk_dir` in `append_directory_structure`: keep a listing
entry iff it is not under an excluded path, and is either a selected file or
a directory. -/
def keepEntry (cwd : FPath) (file_paths_set : List FPath) (path : FPath)
    (e : String × FS) : Bool :=
  !(has_excluded_dir cwd (path ++ [e.1]) EXCLUDED_DIRS) &&
    (file_paths_set.contains (path ++ [e.1]) || e.2.isDir)

theorem sizeOf_filter_le {α : Type} [SizeOf α] (p : α → Bool) (l : List α) :
    sizeOf (l.filter p) ≤ sizeOf l := by
  induction l with
  | nil => simp
  | cons a l ih =>
    rw [List.filter_cons]
    by_cases h : p a = true
    · simp only [h, if_pos]
      simp only [List.cons.sizeOf_spec]
      omega
    · simp only [h]
      simp only [Bool.false_eq_true, if_false, List.cons.sizeOf_spec]
      omega

mutual
/-- `walk_dir(path, prefix)` from `append_directory_structure`: render the
tree lines for the kept entries of `path`'s listing.  The Python `pointers`
list `["├── "] * (len(contents) - 1) + ["└── "]` gives the branch pointer to
every kept entry except the last, which gets the corner pointer. -/
def walk_dir (cwd : FPath) (file_paths_set : List FPath) (path : FPath) (t : FS)
    (pref : String) : String :=
  match t with
  | .file _ => ""
  | .dir es => walkEntries cwd file_paths_set path pref (es.filter (keepEntry cwd file_paths_set path))
termination_by sizeOf t
decreasing_by
  calc sizeOf (es.filter (keepEntry cwd file_paths_set path)) ≤ sizeOf es :=
        sizeOf_filter_le _ _
    _ < sizeOf (FS.dir es) := by simp

/-- The `for pointer, name in zip(pointers, contents)` loop of `walk_dir`:
write the entry's line, then recurse into it if it is a directory. -/
def walkEntries (cwd : FPath) (file_paths_set : List FPath) (path : FPath)
    (pref : String) : List (String × FS) → String
  | [] => ""
  | (name, sub) :: rest =>
    let pointer := if rest.isEmpty then "└── " else "├── "
    let line := pref ++ pointer ++ name ++ "\n"
    (if sub.isDir then
        line ++ walk_dir cwd file_paths_set (path ++ [name]) sub
          (pref ++ (if pointer == "├── " then "│   " else "    "))
      else line) ++ walkEntries cwd file_paths_set path pref rest
termination_by l => sizeOf l
decreasing_by
  · simp; omega
  · simp
end

mutual
/-- The set (in listing order) of files the rendered tree shows as leaves:
the same traversal and filter as `walk_dir`, collecting the full path of
every kept non-directory entry instead of its rendered line. -/
def tree_files (cwd : FPath) (file_paths_set : List FPath) (path : FPath) : FS → List FPath
  | .file _ => []
  | .dir es => treeFilesEntries cwd file_paths_set path (es.filter (keepEntry cwd file_paths_set path))
termination_by t => sizeOf t
decreasing_by
  calc sizeOf (es.filter (keepEntry cwd file_paths_set path)) ≤ sizeOf es :=
        sizeOf_filter_le _ _
    _ < sizeOf (FS.dir es) := by simp

/-- The per-entry part of `tree_files`: a kept file contributes itself, a kept
directory contributes its own kept leaves. -/
def treeFilesEntries (cwd : FPath) (file_paths_set : List FPath) (path : FPath) :
    List (String × FS) → List FPath
  | [] => []
  | (name, sub) :: rest =>
    (if sub.isDir then tree_files cwd file_paths_set (path ++ [name]) sub
      else [path ++ [name]]) ++ treeFilesEntries cwd file_paths_set path rest
termination_by l => sizeOf l
decreasing_by
  · simp; omega
  · simp
end

/-- The header `append_directory_structure` writes before walking. -/
def structureHeader : String := dashes 60 ++ "\n" ++ "Directory Structure\n"

/-- `append_directory_structure(file_paths, base_path, output_file)`: what the
stage appends to the artifact when the base path is a directory. -/
def append_directory_structure (cwd : FPath) (file_paths : List FPath)
    (base_path : FPath) (t : FS) : String :=
  structureHeader ++ walk_dir cwd file_paths base_path t ""

/-- The run configuration of `main`: the working directory, the three optional
command-line arguments and the interpreter's `__file__` value. -/
structure Config where
  cwd : FPath
  directoryArg : Option FPath
  typesArg : Option (List String)
  outputArg : Option FPath
  pyFile : FPath

/-- The default type-pattern list of `main`. -/
def defaultTypes : List String :=
  ["py", "txt", "yml", "Dockerfile", "init.sql", "README.md", "tf"]

/-- `directory = args.directory if args.directory else os.getcwd()`. -/
def mainDirectory (cfg : Config) : FPath := cfg.directoryArg.getD cfg.cwd

/-- `file_types = args.types if args.types else [...]`. -/
def mainTypes (cfg : Config) : List String := cfg.typesArg.getD defaultTypes

/-- `output_file = args.output if args.output else os.path.join(os.getcwd(), 'concatenated_project.txt')`. -/
def mainOutput (cfg : Config) : FPath :=
  cfg.outputArg.getD (cfg.cwd ++ ["concatenated_project.txt"])

/-- `script_file = os.path.abspath(__file__)`. -/
def scriptFile (cfg : Config) : FPath := abspath cfg.cwd cfg.pyFile

/-- `exclude_files = [output_file, script_file]`. -/
def mainExcludeFiles (cfg : Config) : List FPath := [mainOutput cfg, scriptFile cfg]

/-- The `files_by_type` value computed by `main`. -/
def mainGroups (cfg : Config) (fs : Option FS) : List (List FPath) :=
  search_files cfg.cwd (mainDirectory cfg) fs (mainTypes cfg) (mainExcludeFiles cfg)

/-- The `all_files` value computed by `main` (groups flattened in order). -/
def mainAllFiles (cfg : Config) (fs : Option FS) : List FPath := (mainGroups cfg fs).flatten

/-- The observable outcome of a run: either the final artifact content plus the
printed confirmation line, or the name of the uncaught exception together with
the output file's content at the moment it was raised (`none` = the output file
was never created). -/
inductive RunResult where
  | ok (artifact : String) (stdout : String)
  | err (exn : String) (artifactAfter : Option String)

/-- `main()`: select, aggregate, then append the directory structure.  A
missing base path yields no `os.walk` items, so the output file is still
created and truncated and receives the structure header; the run then dies
with `FileNotFoundError` (or `NotADirectoryError` for a plain-file base path)
when `walk_dir` calls `os.listdir(base_path)`. -/
def runMain (cfg : Config) (fs : Option FS)
    (read_file : FPath → Except String String) : RunResult :=
  let contentSection := create_aggregated_file (mainGroups cfg fs) read_file
  match fs with
  | none => .err "FileNotFoundError" (some (contentSection ++ structureHeader))
  | some (.file _) => .err "NotADirectoryError" (some (contentSection ++ structureHeader))
  | some (.dir es) =>
    .ok (contentSection ++
        append_directory_structure cfg.cwd (mainAllFiles cfg fs) (mainDirectory cfg) (.dir es))
      ("Aggregated file created at " ++ pathStr (mainOutput cfg))

mutual
/-- The depth of a tree: the recursion of `walk_dir`/`os.walk` descends only
into strict subtrees, so it is bounded by this measure. -/
def FS.height : FS → Nat
  | .file _ => 0
  | .dir es => 1 + heightList es
termination_by t => sizeOf t
decreasing_by simp

/-- Greatest height among a listing's entries. -/
def heightList : List (String × FS) → Nat
  | [] => 0
  | e :: es => max (FS.height e.2) (heightList es)
termination_by es => sizeOf es
decreasing_by
  · cases e with | mk n s => simp; omega
  · simp
end

mutual
/-- Fuel-bounded version of `osWalk`: `none` when the recursion depth
exceeds the fuel. -/
def osWalkF (fuel : Nat) (p : FPath) (t : FS) : Option (List (FPath × List String)) :=
  match fuel, t with
  | 0, _ => none
  | _ + 1, .file _ => some []
  | fuel + 1, .dir es => (osWalkListF fuel p es).map ((p, fileNames es) :: ·)
termination_by (fuel, sizeOf t)

/-- Fuel-bounded version of `osWalkList`. -/
def osWalkListF (fuel : Nat) (p : FPath) (es : List (String × FS)) :
    Option (List (FPath × List String)) :=
  match es with
  | [] => some []
  | e :: rest =>
    match (if e.2.isDir then osWalkF fuel (p ++ [e.1]) e.2 else some []),
        osWalkListF fuel p rest with
    | some l1, some l2 => some (l1 ++ l2)
    | _, _ => none
termination_by (fuel, sizeOf es)
decreasing_by
  · apply Prod.Lex.right
    cases e with | mk n s => simp; omega
  · apply Prod.Lex.right
    simp
end

mutual
/-- Fuel-bounded version of `walk_dir`: `none` when the recursion depth
exceeds the fuel. -/
def walkDirF (fuel : Nat) (cwd : FPath) (file_paths_set : List FPath) (path : FPath)
    (t : FS) (pref : String) : Option String :=
  match fuel, t with
  | 0, _ => none
  | _ + 1, .file _ => some ""
  | fuel + 1, .dir es =>
    walkEntriesF fuel cwd file_paths_set path pref (es.filter (keepEntry cwd file_paths_set path))
termination_by (fuel, sizeOf t)

/-- Fuel-bounded version of `walkEntries`. -/
def walkEntriesF (fuel : Nat) (cwd : FPath) (file_paths_set : List FPath) (path : FPath)
    (pref : String) (l : List (String × FS)) : Option String :=
  match l with
  | [] => some ""
  | (name, sub) :: rest =>
    let pointer := if rest.isEmpty then "└── " else "├── "
    let line := pref ++ pointer ++ name ++ "\n"
    match (if sub.isDir then
          (walkDirF fuel cwd file_paths_set (path ++ [name]) sub
            (pref ++ (if pointer == "├── " then "│   " else "    "))).map (line ++ ·)
        else some line),
        walkEntriesF fuel cwd file_paths_set path pref rest with
    | some s1, some s2 => some (s1 ++ s2)
    | _, _ => none
termination_by (fuel, sizeOf l)
decreasing_by
  · apply Prod.Lex.right
    simp; omega
  · apply Prod.Lex.right
    simp
end

/-! ## Helper lemmas -/

theorem concatStrings_nil : concatStrings [] = "" := rfl

theorem concatStrings_cons (s : String) (l : List String) :
    concatStrings (s :: l) = s ++ concatStrings l := rfl

theorem concatStrings_append (l1 l2 : List String) :
    concatStrings (l1 ++ l2) = concatStrings l1 ++ concatStrings l2 := by
  induction l1 with
  | nil => simp [concatStrings_nil, String.empty_append]
  | cons s l ih =>
    simp only [List.cons_append, concatStrings_cons, ih, String.append_assoc]

theorem concatStrings_eq_empty {l : List String} (h : ∀ s ∈ l, s = "") :
    concatStrings l = "" := by
  induction l with
  | nil => rfl
  | cons s l ih =>
    rw [concatStrings_cons, h s (by simp), ih (fun s hs => h s (by simp [hs]))]
    rfl

theorem mem_insertSorted (x y : FPath) (l : List FPath) :
    y ∈ insertSorted x l ↔ y = x ∨ y ∈ l := by
  induction l with
  | nil => simp [insertSorted]
  | cons z l ih =>
    rw [insertSorted]
    by_cases h : pathLt z x = true
    · simp only [h, if_pos, List.mem_cons, ih]
      tauto
    · simp only [h, Bool.false_eq_true, if_false, List.mem_cons]
      try tauto

theorem mem_sortPaths (y : FPath) (l : List FPath) : y ∈ sortPaths l ↔ y ∈ l := by
  induction l with
  | nil => simp [sortPaths]
  | cons x l ih => rw [sortPaths, mem_insertSorted, ih, List.mem_cons]

/-- The filter that decides, for pattern index `i`, whether a file listed at
`root` is recorded in group `i`. -/
def fileCond (cwd : FPath) (exclude_files : List FPath) (file_type : String)
    (root : FPath) (f : String) : Bool :=
  !(exclude_files.contains (root ++ [f]) || has_excluded_dir cwd (root ++ [f]) EXCLUDED_DIRS) &&
    matchesType f file_type

theorem fileStep_length (cwd : FPath) (file_types : List String) (excl : List FPath)
    (root : FPath) (acc : List (List FPath)) (f : String) (h : acc.length = file_types.length) :
    (fileStep cwd file_types excl root acc f).length = file_types.length := by
  rw [fileStep]
  split
  · exact h
  · simp [h]

theorem foldl_fileStep_length (cwd : FPath) (file_types : List String) (excl : List FPath)
    (root : FPath) (files : List String) (acc : List (List FPath))
    (h : acc.length = file_types.length) :
    (files.foldl (fileStep cwd file_types excl root) acc).length = file_types.length := by
  induction files generalizing acc with
  | nil => exact h
  | cons f fs ih =>
    rw [List.foldl_cons]
    exact ih _ (fileStep_length _ _ _ _ _ _ h)

theorem fileStep_getD (cwd : FPath) (file_types : List String) (excl : List FPath)
    (root : FPath) (acc : List (List FPath)) (f : String) (i : Nat)
    (h : acc.length = file_types.length) (hi : i < file_types.length) :
    (fileStep cwd file_types excl root acc f).getD i [] =
      if fileCond cwd excl (file_types.getD i "") root f
      then acc.getD i [] ++ [root ++ [f]]
      else acc.getD i [] := by
  rw [fileStep, fileCond]
  by_cases hskip :
      (excl.contains (root ++ [f]) || has_excluded_dir cwd (root ++ [f]) EXCLUDED_DIRS) = true
  · simp only [hskip, if_pos, Bool.not_true, Bool.false_and, Bool.false_eq_true, if_false]
  · simp only [Bool.not_eq_true] at hskip
    simp only [hskip, Bool.false_eq_true, if_false, Bool.not_false, Bool.true_and]
    have hlen : (List.zipWith
        (fun group file_type => if matchesType f file_type then group ++ [root ++ [f]] else group)
        acc file_types).length = file_types.length := by simp [h]
    rw [List.getD_eq_getElem _ _ (by omega), List.getElem_zipWith,
      List.getD_eq_getElem _ _ hi, List.getD_eq_getElem acc _ (by omega)]

theorem foldl_fileStep_getD (cwd : FPath) (file_types : List String) (excl : List FPath)
    (root : FPath) (files : List String) (acc : List (List FPath)) (i : Nat)
    (h : acc.length = file_types.length) (hi : i < file_types.length) :
    (files.foldl (fileStep cwd file_types excl root) acc).getD i [] =
      acc.getD i [] ++
        (files.filter (fileCond cwd excl (file_types.getD i "") root)).map
          (fun f => root ++ [f]) := by
  induction files generalizing acc with
  | nil => simp
  | cons f fs ih =>
    rw [List.foldl_cons, ih _ (fileStep_length _ _ _ _ _ _ h),
      fileStep_getD _ _ _ _ _ _ _ h hi, List.filter_cons]
    by_cases hc : fileCond cwd excl (file_types.getD i "") root f = true
    · simp only [hc, if_pos, List.map_cons, List.append_assoc, List.singleton_append]
    · simp only [hc, Bool.false_eq_true, if_false]

theorem rootStep_length (cwd : FPath) (file_types : List String) (excl : List FPath)
    (acc : List (List FPath)) (rf : FPath × List String) (h : acc.length = file_types.length) :
    (rootStep cwd file_types excl acc rf).length = file_types.length := by
  rw [rootStep]
  split
  · exact h
  · exact foldl_fileStep_length _ _ _ _ _ _ h

/-- The contribution of one `os.walk` item to group `i`. -/
def rootContrib (cwd : FPath) (excl : List FPath) (file_type : String)
    (rf : FPath × List String) : List FPath :=
  if has_excluded_dir cwd rf.1 EXCLUDED_DIRS then []
  else (rf.2.filter (fileCond cwd excl file_type rf.1)).map (fun f => rf.1 ++ [f])

theorem rootStep_getD (cwd : FPath) (file_types : List String) (excl : List FPath)
    (acc : List (List FPath)) (rf : FPath × List String) (i : Nat)
    (h : acc.length = file_types.length) (hi : i < file_types.length) :
    (rootStep cwd file_types excl acc rf).getD i [] =
      acc.getD i [] ++ rootContrib cwd excl (file_types.getD i "") rf := by
  rw [rootStep, rootContrib]
  by_cases hex : has_excluded_dir cwd rf.1 EXCLUDED_DIRS = true
  · simp only [hex, if_pos, List.append_nil]
  · simp only [hex, Bool.false_eq_true, if_false]
    exact foldl_fileStep_getD _ _ _ _ _ _ _ h hi

theorem foldl_rootStep_length (cwd : FPath) (file_types : List String) (excl : List FPath)
    (walkList : List (FPath × List String)) (acc : List (List FPath))
    (h : acc.length = file_types.length) :
    (walkList.foldl (rootStep cwd file_types excl) acc).length = file_types.length := by
  induction walkList generalizing acc with
  | nil => exact h
  | cons rf rest ih =>
    rw [List.foldl_cons]
    exact ih _ (rootStep_length _ _ _ _ _ h)

theorem foldl_rootStep_getD (cwd : FPath) (file_types : List String) (excl : List FPath)
    (walkList : List (FPath × List String)) (acc : List (List FPath)) (i : Nat)
    (h : acc.length = file_types.length) (hi : i < file_types.length) :
    (walkList.foldl (rootStep cwd file_types excl) acc).getD i [] =
      acc.getD i [] ++ walkList.flatMap (rootContrib cwd excl (file_types.getD i "")) := by
  induction walkList generalizing acc with
  | nil => simp
  | cons rf rest ih =>
    rw [List.foldl_cons, ih _ (rootStep_length _ _ _ _ _ h),
      rootStep_getD _ _ _ _ _ _ h hi, List.flatMap_cons, List.append_assoc]

theorem getD_map_nil (l : List String) (i : Nat) :
    (l.map (fun _ => ([] : List FPath))).getD i [] = [] := by
  by_cases hi : i < l.length
  · rw [List.getD_eq_getElem _ _ (by simp [hi]), List.getElem_map]
  · rw [List.getD_eq_default _ _ (by simp; omega)]

theorem getD_map_sortPaths (l : List (List FPath)) (i : Nat) :
    (l.map sortPaths).getD i [] = sortPaths (l.getD i []) := by
  by_cases hi : i < l.length
  · rw [List.getD_eq_getElem _ _ (by simp [hi]), List.getElem_map,
      List.getD_eq_getElem _ _ hi]
  · rw [List.getD_eq_default _ _ (by simp; omega), List.getD_eq_default _ _ (by omega)]
    rfl

theorem search_files_length (cwd base : FPath) (fs : Option FS) (file_types : List String)
    (excl : List FPath) :
    (search_files cwd base fs file_types excl).length = file_types.length := by
  rw [search_files, List.length_map]
  exact foldl_rootStep_length _ _ _ _ _ (by simp)

/-- Membership characterisation of the selector's group `i`: exactly the files
listed by `os.walk` at a non-excluded root, not in the exclude list, not under
an excluded directory, whose name matches pattern `i`. -/
theorem search_files_mem_getD (cwd base : FPath) (fs : Option FS) (file_types : List String)
    (excl : List FPath) (i : Nat) (hi : i < file_types.length) (p : FPath) :
    p ∈ (search_files cwd base fs file_types excl).getD i [] ↔
      ∃ rf ∈ walkOf base fs, has_excluded_dir cwd rf.1 EXCLUDED_DIRS = false ∧
        ∃ f ∈ rf.2, p = rf.1 ++ [f] ∧ excl.contains p = false ∧
          has_excluded_dir cwd p EXCLUDED_DIRS = false ∧
          matchesType f (file_types.getD i "") = true := by
  rw [search_files, getD_map_sortPaths, mem_sortPaths,
    foldl_rootStep_getD _ _ _ _ _ _ (by simp) hi, getD_map_nil, List.nil_append,
    List.mem_flatMap]
  constructor
  · rintro ⟨rf, hrf, hp⟩
    rw [rootContrib] at hp
    by_cases hex : has_excluded_dir cwd rf.1 EXCLUDED_DIRS = true
    · simp [hex] at hp
    · simp only [Bool.not_eq_true] at hex
      simp only [hex, Bool.false_eq_true, if_false, List.mem_map, List.mem_filter] at hp
      obtain ⟨f, ⟨hf, hcond⟩, hpe⟩ := hp
      rw [fileCond, Bool.and_eq_true, Bool.not_eq_true', Bool.or_eq_false_iff] at hcond
      exact ⟨rf, hrf, hex, f, hf, hpe.symm, by rw [← hpe]; exact hcond.1.1,
        by rw [← hpe]; exact hcond.1.2, hcond.2⟩
  · rintro ⟨rf, hrf, hex, f, hf, hpe, hni, hnd, hm⟩
    refine ⟨rf, hrf, ?_⟩
    rw [rootContrib]
    simp only [hex, Bool.false_eq_true, if_false, List.mem_map, List.mem_filter]
    refine ⟨f, ⟨hf, ?_⟩, hpe.symm⟩
    rw [fileCond, Bool.and_eq_true, Bool.not_eq_true', Bool.or_eq_false_iff]
    exact ⟨⟨by rw [← hpe]; exact hni, by rw [← hpe]; exact hnd⟩, hm⟩

/-- Membership characterisation of the flattened selection. -/
theorem search_files_flatten_mem (cwd base : FPath) (fs : Option FS)
    (file_types : List String) (excl : List FPath) (p : FPath) :
    p ∈ (search_files cwd base fs file_types excl).flatten ↔
      ∃ i < file_types.length,
        p ∈ (search_files cwd base fs file_types excl).getD i [] := by
  rw [List.mem_flatten]
  constructor
  · rintro ⟨g, hg, hp⟩
    obtain ⟨i, hilen, hgi⟩ := List.mem_iff_getElem.mp hg
    rw [search_files_length] at hilen
    refine ⟨i, hilen, ?_⟩
    rw [List.getD_eq_getElem _ _ (by rw [search_files_length]; exact hilen), hgi]
    exact hp
  · rintro ⟨i, hilen, hp⟩
    refine ⟨(search_files cwd base fs file_types excl).getD i [], ?_, hp⟩
    rw [List.getD_eq_getElem _ _ (by rw [search_files_length]; exact hilen)]
    exact List.getElem_mem _

theorem has_excluded_dir_append (cwd q r : FPath) (hq : q ≠ [])
    (h : has_excluded_dir cwd q EXCLUDED_DIRS = true) :
    has_excluded_dir cwd (q ++ r) EXCLUDED_DIRS = true := by
  rw [has_excluded_dir, abspath] at h ⊢
  have hhead : isAbsolute (q ++ r) = isAbsolute q := by
    rw [isAbsolute, isAbsolute, List.head?_append_of_ne_nil _ hq]
  rw [hhead]
  by_cases habs : isAbsolute q = true
  · simp only [habs, if_pos] at h ⊢
    rw [List.any_append, h, Bool.true_or]
  · simp only [habs, Bool.false_eq_true, if_false] at h ⊢
    rw [← List.append_assoc, List.any_append, h, Bool.true_or]

theorem sizeOf_lt_dir {es : List (String × FS)} {e : String × FS} (h : e ∈ es) :
    sizeOf e.2 < sizeOf (FS.dir es) := by
  have h1 := List.sizeOf_lt_of_mem h
  cases e with | mk n s => simp at h1 ⊢; omega

/-- Strong induction on the size of a tree. -/
theorem FS.sizeOf_induction (P : FS → Prop)
    (ih : ∀ t : FS, (∀ s : FS, sizeOf s < sizeOf t → P s) → P t) : ∀ t, P t := by
  have key : ∀ (n : Nat) (t : FS), sizeOf t < n → P t := by
    intro n
    induction n with
    | zero => intro t ht; omega
    | succ n ihn => intro t ht; exact ih t (fun s hs => ihn s (by omega))
  exact fun t => key (sizeOf t + 1) t (by omega)

theorem mem_fileNames (es : List (String × FS)) (f : String) :
    f ∈ fileNames es ↔ ∃ e ∈ es, e.2.isDir = false ∧ e.1 = f := by
  rw [fileNames, List.mem_filterMap]
  constructor
  · rintro ⟨e, he, hf⟩
    by_cases hd : e.2.isDir = true
    · simp [hd] at hf
    · simp only [hd, Bool.false_eq_true, if_false, Option.some.injEq] at hf
      exact ⟨e, he, by simpa using hd, hf⟩
  · rintro ⟨e, he, hd, hf⟩
    exact ⟨e, he, by simp [hd, hf]⟩

theorem mem_osWalkList (p : FPath) (es : List (String × FS)) (x : FPath × List String) :
    x ∈ osWalkList p es ↔ ∃ e ∈ es, e.2.isDir = true ∧ x ∈ osWalk (p ++ [e.1]) e.2 := by
  induction es with
  | nil => simp [osWalkList]
  | cons e rest ih =>
    simp only [osWalkList, List.mem_append, ih, List.mem_cons]
    by_cases hd : e.2.isDir = true
    · simp only [hd, if_pos]
      constructor
      · rintro (hx | ⟨e', he', hx⟩)
        · exact ⟨e, Or.inl rfl, hd, hx⟩
        · exact ⟨e', Or.inr he', hx⟩
      · rintro ⟨e', (rfl | he'), hdir, hx⟩
        · exact Or.inl hx
        · exact Or.inr ⟨e', he', hdir, hx⟩
    · simp only [hd, Bool.false_eq_true, if_false, List.not_mem_nil, false_or]
      constructor
      · rintro ⟨e', he', hx⟩
        exact ⟨e', Or.inr he', hx⟩
      · rintro ⟨e', (rfl | he'), hdir, hx⟩
        · exact absurd hdir hd
        · exact ⟨e', he', hdir, hx⟩

theorem mem_osWalk_dir (p : FPath) (es : List (String × FS)) (x : FPath × List String) :
    x ∈ osWalk p (.dir es) ↔
      x = (p, fileNames es) ∨ ∃ e ∈ es, e.2.isDir = true ∧ x ∈ osWalk (p ++ [e.1]) e.2 := by
  rw [show osWalk p (.dir es) = (p, fileNames es) :: osWalkList p es by simp [osWalk]]
  rw [List.mem_cons, mem_osWalkList]

/-- Every root yielded by `os.walk(p)` extends `p`. -/
theorem osWalk_root_extends :
    ∀ t : FS, ∀ p : FPath, ∀ rf : FPath × List String,
      rf ∈ osWalk p t → ∃ rel, rf.1 = p ++ rel := by
  refine FS.sizeOf_induction
    (fun t => ∀ p : FPath, ∀ rf : FPath × List String, rf ∈ osWalk p t → ∃ rel, rf.1 = p ++ rel)
    (fun t ih => ?_)
  match t with
  | .file c => intro p rf h; simp [osWalk] at h
  | .dir es =>
    intro p rf h
    rw [mem_osWalk_dir] at h
    rcases h with rfl | ⟨e, he, hd, hx⟩
    · exact ⟨[], by simp⟩
    · obtain ⟨rel, hrel⟩ := ih e.2 (sizeOf_lt_dir he) (p ++ [e.1]) rf hx
      exact ⟨[e.1] ++ rel, by rw [hrel, List.append_assoc]⟩

theorem mem_treeFilesEntries (cwd : FPath) (fps : List FPath) (path : FPath)
    (l : List (String × FS)) (p : FPath) :
    p ∈ treeFilesEntries cwd fps path l ↔
      ∃ e ∈ l, (e.2.isDir = false ∧ p = path ++ [e.1]) ∨
        (e.2.isDir = true ∧ p ∈ tree_files cwd fps (path ++ [e.1]) e.2) := by
  induction l with
  | nil => simp [treeFilesEntries]
  | cons e rest ih =>
    cases e with | mk name sub =>
    simp only [treeFilesEntries, List.mem_append, ih, List.mem_cons]
    by_cases hd : sub.isDir = true
    · simp only [hd, if_pos]
      constructor
      · rintro (hx | ⟨e', he', hx⟩)
        · exact ⟨(name, sub), Or.inl rfl, Or.inr ⟨hd, hx⟩⟩
        · exact ⟨e', Or.inr he', hx⟩
      · rintro ⟨e', (rfl | he'), (⟨hnd, _⟩ | ⟨_, hx⟩)⟩
        · exact absurd hd (by simp [hnd])
        · exact Or.inl hx
        · exact Or.inr ⟨e', he', Or.inl ⟨hnd, by assumption⟩⟩
        · exact Or.inr ⟨e', he', Or.inr ⟨by assumption, hx⟩⟩
    · simp only [hd, Bool.false_eq_true, if_false, List.mem_singleton]
      constructor
      · rintro (hx | ⟨e', he', hx⟩)
        · exact ⟨(name, sub), Or.inl rfl, Or.inl ⟨by simpa using hd, hx⟩⟩
        · exact ⟨e', Or.inr he', hx⟩
      · rintro ⟨e', (rfl | he'), (⟨hnd, hp⟩ | ⟨hdir, hx⟩)⟩
        · exact Or.inl hp
        · exact absurd hdir hd
        · exact Or.inr ⟨e', he', Or.inl ⟨hnd, hp⟩⟩
        · exact Or.inr ⟨e', he', Or.inr ⟨hdir, hx⟩⟩

theorem tree_files_dir (cwd : FPath) (fps : List FPath) (path : FPath)
    (es : List (String × FS)) :
    tree_files cwd fps path (.dir es) =
      treeFilesEntries cwd fps path (es.filter (keepEntry cwd fps path)) := by
  simp [tree_files]

/-- Every file leaf shown by the tree walk is a member of the selected set. -/
theorem tree_files_subset (cwd : FPath) (fps : List FPath) :
    ∀ t : FS, ∀ path p, p ∈ tree_files cwd fps path t → fps.contains p = true := by
  refine FS.sizeOf_induction
    (fun t => ∀ path p, p ∈ tree_files cwd fps path t → fps.contains p = true)
    (fun t ih => ?_)
  match t with
  | .file c => intro path p h; simp [tree_files] at h
  | .dir es =>
    intro path p h
    rw [tree_files_dir, mem_treeFilesEntries] at h
    obtain ⟨e, he, hcase⟩ := h
    have hkeep : keepEntry cwd fps path e = true := (List.mem_filter.mp he).2
    rcases hcase with ⟨hnd, rfl⟩ | ⟨hdir, hx⟩
    · rw [keepEntry, Bool.and_eq_true, Bool.or_eq_true] at hkeep
      rcases hkeep.2 with hc | hd
      · exact hc
      · exact absurd hd (by simp [hnd])
    · exact ih e.2 (sizeOf_lt_dir (List.mem_of_mem_filter he)) (path ++ [e.1]) p hx

/-- No file under an excluded directory is ever shown by the tree walk. -/
theorem tree_files_not_excluded (cwd : FPath) (fps : List FPath) :
    ∀ t : FS, ∀ path p, p ∈ tree_files cwd fps path t →
      has_excluded_dir cwd p EXCLUDED_DIRS = false := by
  refine FS.sizeOf_induction
    (fun t => ∀ path p, p ∈ tree_files cwd fps path t →
      has_excluded_dir cwd p EXCLUDED_DIRS = false)
    (fun t ih => ?_)
  match t with
  | .file c => intro path p h; simp [tree_files] at h
  | .dir es =>
    intro path p h
    rw [tree_files_dir, mem_treeFilesEntries] at h
    obtain ⟨e, he, hcase⟩ := h
    have hkeep : keepEntry cwd fps path e = true := (List.mem_filter.mp he).2
    rcases hcase with ⟨hnd, rfl⟩ | ⟨hdir, hx⟩
    · rw [keepEntry, Bool.and_eq_true, Bool.not_eq_true'] at hkeep
      exact hkeep.1
    · exact ih e.2 (sizeOf_lt_dir (List.mem_of_mem_filter he)) (path ++ [e.1]) p hx

/-- Every file listed by `os.walk` that survives the exclusion filter and is in
the selected set appears as a leaf of the tree walk rooted at the same path. -/
theorem mem_tree_files_of_walk (cwd : FPath) (fps : List FPath) :
    ∀ t : FS, ∀ path root : FPath, ∀ files : List String, ∀ f : String,
      (root, files) ∈ osWalk path t → f ∈ files →
      has_excluded_dir cwd (root ++ [f]) EXCLUDED_DIRS = false →
      fps.contains (root ++ [f]) = true →
      (root ++ [f]) ∈ tree_files cwd fps path t := by
  refine FS.sizeOf_induction
    (fun t => ∀ path root : FPath, ∀ files : List String, ∀ f : String,
      (root, files) ∈ osWalk path t → f ∈ files →
      has_excluded_dir cwd (root ++ [f]) EXCLUDED_DIRS = false →
      fps.contains (root ++ [f]) = true →
      (root ++ [f]) ∈ tree_files cwd fps path t)
    (fun t ih => ?_)
  match t with
  | .file c => intro path root files f h; simp [osWalk] at h
  | .dir es =>
    intro path root files f hw hf hex hc
    rw [mem_osWalk_dir] at hw
    rw [tree_files_dir, mem_treeFilesEntries]
    rcases hw with heq | ⟨e, he, hd, hx⟩
    · obtain ⟨hroot, hfiles⟩ := Prod.mk.injEq .. ▸ heq
      subst hroot
      obtain ⟨e, he, hnd, hname⟩ := mem_fileNames es f |>.mp (hfiles ▸ hf)
      refine ⟨e, ?_, Or.inl ⟨hnd, by rw [hname]⟩⟩
      rw [List.mem_filter]
      refine ⟨he, ?_⟩
      rw [keepEntry, Bool.and_eq_true, Bool.not_eq_true', Bool.or_eq_true]
      exact ⟨by rw [hname]; exact hex, Or.inl (by rw [hname]; exact hc)⟩
    · obtain ⟨rel, hrel⟩ := osWalk_root_extends e.2 (path ++ [e.1]) (root, files) hx
      simp only at hrel
      have hsub : (root ++ [f]) ∈ tree_files cwd fps (path ++ [e.1]) e.2 :=
        ih e.2 (sizeOf_lt_dir he) (path ++ [e.1]) root files f hx hf hex hc
      refine ⟨e, ?_, Or.inr ⟨hd, hsub⟩⟩
      rw [List.mem_filter]
      refine ⟨he, ?_⟩
      rw [keepEntry, Bool.and_eq_true, Bool.not_eq_true', Bool.or_eq_true]
      refine ⟨?_, Or.inr hd⟩
      by_contra hcon
      rw [Bool.not_eq_false] at hcon
      have : has_excluded_dir cwd ((path ++ [e.1]) ++ (rel ++ [f])) EXCLUDED_DIRS = true :=
        has_excluded_dir_append cwd (path ++ [e.1]) (rel ++ [f]) (by simp) hcon
    
      rw [← List.append_assoc, ← hrel] at this
      rw [this] at hex
      exact absurd hex (by simp)

/-- If every entry of a directory is filtered out, its rendered tree is empty. -/
theorem walk_dir_dir_eq_empty (cwd : FPath) (fps : List FPath) (path : FPath)
    (es : List (String × FS)) (pref : String)
    (h : ∀ e ∈ es, keepEntry cwd fps path e = false) :
    walk_dir cwd fps path (.dir es) pref = "" := by
  have hfil : es.filter (keepEntry cwd fps path) = [] :=
    List.filter_eq_nil_iff.mpr (by intro a ha; simp [h a ha])
  simp [walk_dir, hfil, walkEntries]

theorem create_aggregated_file_append (gs1 gs2 : List (List FPath))
    (rf : FPath → Except String String) :
    create_aggregated_file (gs1 ++ gs2) rf =
      create_aggregated_file gs1 rf ++ create_aggregated_file gs2 rf := by
  rw [create_aggregated_file, List.map_append, concatStrings_append]
  rfl

theorem concatStrings_map_append (pre post : List FPath) (fp : FPath)
    (rf : FPath → Except String String) :
    concatStrings ((pre ++ fp :: post).map (entry_block rf)) =
      concatStrings (pre.map (entry_block rf)) ++
        (entry_block rf fp ++ concatStrings (post.map (entry_block rf))) := by
  rw [List.map_append, concatStrings_append, List.map_cons, concatStrings_cons]

/-- Decomposition of the aggregated content around one selected file: the
blocks before it and after it are unaffected by what its own read returns. -/
theorem create_aggregated_file_decomp (gs1 gs2 : List (List FPath)) (pre post : List FPath)
    (fp : FPath) (rf : FPath → Except String String) :
    create_aggregated_file (gs1 ++ (pre ++ fp :: post) :: gs2) rf =
      create_aggregated_file (gs1 ++ [pre]) rf ++
        (entry_block rf fp ++ create_aggregated_file (post :: gs2) rf) := by
  rw [create_aggregated_file_append, create_aggregated_file_append]
  rw [show create_aggregated_file ((pre ++ fp :: post) :: gs2) rf =
      concatStrings ((pre ++ fp :: post).map (entry_block rf)) ++
        create_aggregated_file gs2 rf from
    create_aggregated_file_append [pre ++ fp :: post] gs2 rf ▸ by
      rw [create_aggregated_file, List.map_singleton, concatStrings_cons, concatStrings_nil,
        String.append_empty]]
  rw [concatStrings_map_append]
  rw [show create_aggregated_file [pre] rf = concatStrings (pre.map (entry_block rf)) by
    rw [create_aggregated_file, List.map_singleton, concatStrings_cons, concatStrings_nil,
      String.append_empty]]
  rw [show create_aggregated_file (post :: gs2) rf =
      concatStrings (post.map (entry_block rf)) ++ create_aggregated_file gs2 rf from
    create_aggregated_file_append [post] gs2 rf ▸ by
      rw [create_aggregated_file, List.map_singleton, concatStrings_cons, concatStrings_nil,
        String.append_empty]]
  rw [String.append_assoc, String.append_assoc, String.append_assoc]

theorem search_files_none (cwd base : FPath) (ft : List String) (excl : List FPath) :
    search_files cwd base none ft excl = ft.map (fun _ => []) := by
  rw [search_files, walkOf, List.foldl_nil, List.map_map]
  rfl

theorem search_files_base_file (cwd base : FPath) (c : Except String String)
    (ft : List String) (excl : List FPath) :
    search_files cwd base (some (.file c)) ft excl = ft.map (fun _ => []) := by
  rw [search_files, walkOf, show osWalk base (FS.file c) = [] by simp [osWalk],
    List.foldl_nil, List.map_map]
  rfl

theorem create_aggregated_file_all_nil {gs : List (List FPath)} (h : ∀ g ∈ gs, g = [])
    (rf : FPath → Except String String) : create_aggregated_file gs rf = "" := by
  rw [create_aggregated_file]
  apply concatStrings_eq_empty
  intro s hs
  rw [List.mem_map] at hs
  obtain ⟨g, hg, rfl⟩ := hs
  rw [h g hg]
  rfl

theorem runMain_none (cfg : Config) (rf : FPath → Except String String) :
    runMain cfg none rf = .err "FileNotFoundError" (some structureHeader) := by
  have hgroups : mainGroups cfg none = (mainTypes cfg).map (fun _ => []) := by
    rw [mainGroups, search_files_none]
  rw [runMain]
  rw [hgroups, create_aggregated_file_all_nil (by simp) rf, String.empty_append]

theorem runMain_base_file (cfg : Config) (c : Except String String)
    (rf : FPath → Except String String) :
    runMain cfg (some (.file c)) rf = .err "NotADirectoryError" (some structureHeader) := by
  have hgroups : mainGroups cfg (some (.file c)) = (mainTypes cfg).map (fun _ => []) := by
    rw [mainGroups, search_files_base_file]
  rw [runMain]
  rw [hgroups, create_aggregated_file_all_nil (by simp) rf, String.empty_append]

theorem heightList_bound {es : List (String × FS)} {e : String × FS} (h : e ∈ es) :
    FS.height e.2 ≤ heightList es := by
  induction es with
  | nil => simp at h
  | cons e' rest ih =>
    rcases List.mem_cons.mp h with rfl | hmem
    · simp only [heightList]
      exact le_max_left _ _
    · simp only [heightList]
      exact le_trans (ih hmem) (le_max_right _ _)

theorem height_dir (es : List (String × FS)) : FS.height (.dir es) = 1 + heightList es := by
  simp [FS.height]

/-- With fuel exceeding the tree's height, the fuel-bounded walk succeeds and
agrees with `osWalk`. -/
theorem osWalkF_eq (fuel : Nat) :
    ∀ t : FS, ∀ p : FPath, FS.height t < fuel → osWalkF fuel p t = some (osWalk p t) := by
  induction fuel with
  | zero => intro t p h; omega
  | succ fuel ih =>
    intro t p h
    match t with
    | .file c => simp [osWalkF, osWalk]
    | .dir es =>
      have hb : ∀ e ∈ es, FS.height e.2 < fuel := by
        rw [height_dir] at h
        intro e he
        have := heightList_bound he
        omega
      have hlist : ∀ l : List (String × FS), (∀ e ∈ l, FS.height e.2 < fuel) →
          osWalkListF fuel p l = some (osWalkList p l) := by
        intro l
        induction l with
        | nil => intro _; simp [osWalkListF, osWalkList]
        | cons e rest ihl =>
          intro hbl
          have h1 : (if e.2.isDir then osWalkF fuel (p ++ [e.1]) e.2 else some []) =
              some (if e.2.isDir then osWalk (p ++ [e.1]) e.2 else []) := by
            by_cases hd : e.2.isDir = true
            · simp only [hd, if_pos]
              exact ih e.2 (p ++ [e.1]) (hbl e (by simp))
            · simp only [hd, Bool.false_eq_true, if_false]
          have h2 : osWalkListF fuel p rest = some (osWalkList p rest) :=
            ihl (fun e' he' => hbl e' (by simp [he']))
          rw [osWalkListF.eq_def]
          simp only [h1, h2, osWalkList]
      rw [osWalkF.eq_def]
      simp only [hlist es hb, osWalk]
      rfl

/-- With fuel exceeding the tree's height, the fuel-bounded tree renderer
succeeds and agrees with `walk_dir`. -/
theorem walkDirF_eq (fuel : Nat) :
    ∀ t : FS, ∀ cwd : FPath, ∀ fps : List FPath, ∀ path : FPath, ∀ pref : String,
      FS.height t < fuel →
      walkDirF fuel cwd fps path t pref = some (walk_dir cwd fps path t pref) := by
  induction fuel with
  | zero => intro t _ _ _ _ h; omega
  | succ fuel ih =>
    intro t cwd fps path pref h
    match t with
    | .file c => simp [walkDirF, walk_dir]
    | .dir es =>
      have hb : ∀ e ∈ es.filter (keepEntry cwd fps path), FS.height e.2 < fuel := by
        rw [height_dir] at h
        intro e he
        have := heightList_bound (List.mem_of_mem_filter he)
        omega
      have hlist : ∀ l : List (String × FS), (∀ e ∈ l, FS.height e.2 < fuel) →
          walkEntriesF fuel cwd fps path pref l = some (walkEntries cwd fps path pref l) := by
        intro l
        induction l with
        | nil => intro _; simp [walkEntriesF, walkEntries]
        | cons e rest ihl =>
          intro hbl
          cases e with | mk name sub =>
          have h2 : walkEntriesF fuel cwd fps path pref rest =
              some (walkEntries cwd fps path pref rest) :=
            ihl (fun e' he' => hbl e' (by simp [he']))
          by_cases hd : sub.isDir = true
          · rw [walkEntriesF.eq_def]
            simp only [hd, if_pos, h2,
              ih sub cwd fps (path ++ [name]) _ (hbl (name, sub) (by simp))]
            rw [show walkEntries cwd fps path pref ((name, sub) :: rest) =
                (if sub.isDir then
                    (pref ++ (if rest.isEmpty then "└── " else "├── ") ++ name ++ "\n") ++
                      walk_dir cwd fps (path ++ [name]) sub
                        (pref ++ (if (if rest.isEmpty then "└── " else "├── ") == "├── "
                          then "│   " else "    "))
                  else (pref ++ (if rest.isEmpty then "└── " else "├── ") ++ name ++ "\n")) ++
                  walkEntries cwd fps path pref rest by simp [walkEntries]]
            simp [hd]
          · rw [walkEntriesF.eq_def]
            simp only [hd, Bool.false_eq_true, if_false, h2]
            rw [show walkEntries cwd fps path pref ((name, sub) :: rest) =
                (if sub.isDir then
                    (pref ++ (if rest.isEmpty then "└── " else "├── ") ++ name ++ "\n") ++
                      walk_dir cwd fps (path ++ [name]) sub
                        (pref ++ (if (if rest.isEmpty then "└── " else "├── ") == "├── "
                          then "│   " else "    "))
                  else (pref ++ (if rest.isEmpty then "└── " else "├── ") ++ name ++ "\n")) ++
                  walkEntries cwd fps path pref rest by simp [walkEntries]]
            simp [hd]
      rw [walkDirF.eq_def]
      simp only [hlist _ hb]
      rw [show walk_dir cwd fps path (.dir es) pref =
          walkEntries cwd fps path pref (es.filter (keepEntry cwd fps path)) by simp [walk_dir]]

theorem flatten_not_excluded (cwd base : FPath) (fs : Option FS) (ft : List String)
    (excl : List FPath) (p : FPath)
    (hp : p ∈ (search_files cwd base fs ft excl).flatten) :
    has_excluded_dir cwd p EXCLUDED_DIRS = false := by
  rw [search_files_flatten_mem] at hp
  obtain ⟨i, hi, hmem⟩ := hp
  rw [search_files_mem_getD _ _ _ _ _ i hi] at hmem
  obtain ⟨rf, _, _, f, _, rfl, _, hnd, _⟩ := hmem
  exact hnd

theorem flatten_not_in_exclude (cwd base : FPath) (fs : Option FS) (ft : List String)
    (excl : List FPath) (p : FPath)
    (hp : p ∈ (search_files cwd base fs ft excl).flatten) :
    excl.contains p = false := by
  rw [search_files_flatten_mem] at hp
  obtain ⟨i, hi, hmem⟩ := hp
  rw [search_files_mem_getD _ _ _ _ _ i hi] at hmem
  obtain ⟨rf, _, _, f, _, rfl, hni, _, _⟩ := hmem
  exact hni

theorem has_excluded_dir_of_seg (cwd q r : FPath) (d : String) (hd : d ∈ EXCLUDED_DIRS) :
    has_excluded_dir cwd (q ++ d :: r) EXCLUDED_DIRS = true := by
  rw [has_excluded_dir]
  apply List.any_eq_true.mpr
  refine ⟨d, ?_, List.any_eq_true.mpr ⟨d, hd, by simp⟩⟩
  rw [abspath]
  split
  · simp
  · simp


theorem walk_dir_dir (cwd : FPath) (fps : List FPath) (path : FPath)
    (es : List (String × FS)) (pref : String) :
    walk_dir cwd fps path (.dir es) pref =
      walkEntries cwd fps path pref (es.filter (keepEntry cwd fps path)) := by
  simp [walk_dir]

theorem walkEntries_cons (cwd : FPath) (fps : List FPath) (path : FPath) (pref : String)
    (name : String) (sub : FS) (rest : List (String × FS)) :
    walkEntries cwd fps path pref ((name, sub) :: rest) =
      (if sub.isDir then
          (pref ++ (if rest.isEmpty then "└── " else "├── ") ++ name ++ "\n") ++
            walk_dir cwd fps (path ++ [name]) sub
              (pref ++ (if (if rest.isEmpty then "└── " else "├── ") == "├── "
                then "│   " else "    "))
        else (pref ++ (if rest.isEmpty then "└── " else "├── ") ++ name ++ "\n")) ++
        walkEntries cwd fps path pref rest := by
  simp [walkEntries]

theorem treeFilesEntries_cons (cwd : FPath) (fps : List FPath) (path : FPath)
    (name : String) (sub : FS) (rest : List (String × FS)) :
    treeFilesEntries cwd fps path ((name, sub) :: rest) =
      (if sub.isDir then tree_files cwd fps (path ++ [name]) sub else [path ++ [name]]) ++
        treeFilesEntries cwd fps path rest := by
  simp [treeFilesEntries]

/-- Every leaf collected by `tree_files` appears in `walk_dir`'s rendered
text as a full line: some nesting prefix, a branch or corner pointer, the
file's basename, and a newline. -/
theorem walk_dir_renders_leaf (cwd : FPath) (fps : List FPath) :
    ∀ t : FS, ∀ path p : FPath, ∀ pref : String, p ∈ tree_files cwd fps path t →
      ∃ s1 s2 pr ptr : String, (ptr = "├── " ∨ ptr = "└── ") ∧
        walk_dir cwd fps path t pref = s1 ++ (pr ++ ptr ++ basename p ++ "\n") ++ s2 := by
  refine FS.sizeOf_induction
    (fun t => ∀ path p : FPath, ∀ pref : String, p ∈ tree_files cwd fps path t →
      ∃ s1 s2 pr ptr : String, (ptr = "├── " ∨ ptr = "└── ") ∧
        walk_dir cwd fps path t pref = s1 ++ (pr ++ ptr ++ basename p ++ "\n") ++ s2)
    (fun t ih => ?_)
  match t with
  | .file c => intro path p pref h; simp [tree_files] at h
  | .dir es =>
    intro path p pref h
    rw [tree_files_dir] at h
    rw [walk_dir_dir]
    have key : ∀ l : List (String × FS), (∀ e ∈ l, sizeOf e.2 < sizeOf (FS.dir es)) →
        ∀ pf : String, p ∈ treeFilesEntries cwd fps path l →
          ∃ s1 s2 pr ptr : String, (ptr = "├── " ∨ ptr = "└── ") ∧
            walkEntries cwd fps path pf l = s1 ++ (pr ++ ptr ++ basename p ++ "\n") ++ s2 := by
      intro l
      induction l with
      | nil => intro _ pf hp; simp [treeFilesEntries] at hp
      | cons e rest ihl =>
        intro hsz pf hp
        cases e with | mk name sub =>
        rw [treeFilesEntries_cons, List.mem_append] at hp
        rw [walkEntries_cons]
        rcases hp with hp | hp
        · by_cases hd : sub.isDir = true
          · rw [if_pos hd] at hp
            obtain ⟨s1, s2, pr, ptr, hptr, hwd⟩ :=
              ih sub (hsz (name, sub) (by simp)) (path ++ [name]) p
                (pf ++ (if (if rest.isEmpty then "└── " else "├── ") == "├── "
                  then "│   " else "    ")) hp
            refine ⟨(pf ++ (if rest.isEmpty then "└── " else "├── ") ++ name ++ "\n") ++ s1,
              s2 ++ walkEntries cwd fps path pf rest, pr, ptr, hptr, ?_⟩
            rw [if_pos hd, hwd]
            simp [String.append_assoc]
          · rw [if_neg (by simp [hd])] at hp
            rw [List.mem_singleton] at hp
            subst hp
            refine ⟨"", walkEntries cwd fps path pf rest, pf,
              (if rest.isEmpty then "└── " else "├── "), ?_, ?_⟩
            · by_cases he : rest.isEmpty <;> simp [he]
            · rw [if_neg (by simp [hd])]
              rw [show basename (path ++ [name]) = name from List.getLastD_concat _ _ _]
              rw [String.empty_append]
        · obtain ⟨s1, s2, pr, ptr, hptr, hwe⟩ :=
            ihl (fun e he => hsz e (by simp [he])) pf hp
          refine ⟨(if sub.isDir then
              (pf ++ (if rest.isEmpty then "└── " else "├── ") ++ name ++ "\n") ++
                walk_dir cwd fps (path ++ [name]) sub
                  (pf ++ (if (if rest.isEmpty then "└── " else "├── ") == "├── "
                    then "│   " else "    "))
            else (pf ++ (if rest.isEmpty then "└── " else "├── ") ++ name ++ "\n")) ++ s1,
            s2, pr, ptr, hptr, ?_⟩
          rw [hwe]
          simp [String.append_assoc]
    exact key (es.filter (keepEntry cwd fps path))
      (fun e he => sizeOf_lt_dir (List.mem_of_mem_filter he)) pref h

/-! ## Claim theorems -/

/-- C1 (counterexample): the selector does NOT apply first-match-wins.  With
patterns `["py", "a.py"]`, the single file `a.py` satisfies both patterns and
is recorded in BOTH groups — the inner loop of `search_files` has no `break`,
so the claim "appended only to the group of the first pattern it satisfies,
never in more than one group" is false at this input. -/
theorem C1_counterexample :
    search_files ["", "c"] ["", "b"] (some (.dir [("a.py", .file (.ok "x=1"))]))
        ["py", "a.py"] [] = [[["", "b", "a.py"]], [["", "b", "a.py"]]] ∧
      ([[["", "b", "a.py"]], [["", "b", "a.py"]]] : List (List FPath)).countP
        (fun g => g.contains ["", "b", "a.py"]) = 2 := by
  constructor
  · simp [search_files, walkOf, osWalk, osWalkList, rootStep, fileStep, fileNames,
      has_excluded_dir, abspath, isAbsolute, EXCLUDED_DIRS, matchesType, sortPaths,
      insertSorted, FS.isDir]
  · decide

/-- C1 (amended): for every visited, non-excluded file and every configured
pattern index `i`, the file is appended to group `i` precisely when it
satisfies pattern `i` — i.e. the file is recorded once in the group of EVERY
pattern it satisfies, not only the first. -/
theorem C1_grouping_every_match (cwd base : FPath) (fs : Option FS)
    (file_types : List String) (excl : List FPath) (i : Nat)
    (hi : i < file_types.length) (p : FPath) :
    p ∈ (search_files cwd base fs file_types excl).getD i [] ↔
      ∃ rf ∈ walkOf base fs, has_excluded_dir cwd rf.1 EXCLUDED_DIRS = false ∧
        ∃ f ∈ rf.2, p = rf.1 ++ [f] ∧ excl.contains p = false ∧
          has_excluded_dir cwd p EXCLUDED_DIRS = false ∧
          matchesType f (file_types.getD i "") = true :=
  search_files_mem_getD cwd base fs file_types excl i hi p

/-- Witness for the amended C1 at pattern index 1 of `["py", "a.py"]`. -/
theorem C1_grouping_every_match_witness :
    1 < (["py", "a.py"] : List String).length ∧
      ((["", "b", "a.py"] : FPath) ∈
          (search_files ["", "c"] ["", "b"] (some (.dir [("a.py", .file (.ok "x=1"))]))
            ["py", "a.py"] []).getD 1 [] ↔
        ∃ rf ∈ walkOf ["", "b"] (some (.dir [("a.py", .file (.ok "x=1"))])),
          has_excluded_dir ["", "c"] rf.1 EXCLUDED_DIRS = false ∧
          ∃ f ∈ rf.2, (["", "b", "a.py"] : FPath) = rf.1 ++ [f] ∧
            ([] : List FPath).contains ["", "b", "a.py"] = false ∧
            has_excluded_dir ["", "c"] ["", "b", "a.py"] EXCLUDED_DIRS = false ∧
            matchesType f ((["py", "a.py"] : List String).getD 1 "") = true) :=
  ⟨by decide, C1_grouping_every_match ["", "c"] ["", "b"]
    (some (.dir [("a.py", .file (.ok "x=1"))])) ["py", "a.py"] [] 1 (by decide)
    ["", "b", "a.py"]⟩

/-- C2 (counterexample): with a missing base path the run does fail with
`FileNotFoundError`, but only AFTER the output artifact has been created,
truncated, and given the structure header — the artifact content at the crash
is the non-empty `structureHeader`, so "no partial output artifact is
produced" is false at this input. -/
theorem C2_counterexample :
    runMain ⟨["", "h"], some ["", "m"], some ["py"], none, ["", "h", "pc.py"]⟩ none
        (fun _ => .ok "") = .err "FileNotFoundError" (some structureHeader) ∧
      structureHeader ≠ "" := by
  constructor
  · exact runMain_none _ _
  · decide

/-- C2 (amended): a missing base path raises `FileNotFoundError` and a
plain-file base path raises `NotADirectoryError`, surfaced to the caller —
but in both cases the output artifact has already been created/truncated and
holds the 60-dash line plus `Directory Structure` (the selector silently
yields nothing, the content stage truncates the artifact, and the crash comes
from `os.listdir` inside the tree-rendering stage). -/
theorem C2_failure_after_truncation (cfg : Config) (rf : FPath → Except String String)
    (c : Except String String) :
    runMain cfg none rf = .err "FileNotFoundError" (some structureHeader) ∧
      runMain cfg (some (.file c)) rf = .err "NotADirectoryError" (some structureHeader) :=
  ⟨runMain_none cfg rf, runMain_base_file cfg c rf⟩

/-- C3 (counterexample): when the read of a selected file fails, the
aggregator writes ONLY the `Error reading <path>: <msg>` line — no delimiter
and no `File Path`/`File Name` header lines are produced for that entry (they
sit after the read inside the `try` block), so the entry does not even start
with a dash. -/
theorem C3_counterexample :
    create_aggregated_file [[["", "b", "a.py"]]] (fun _ => .error "boom") =
        "Error reading /b/a.py: boom\n" ∧
      ("Error reading /b/a.py: boom\n").toList.head? ≠ some '-' := by
  constructor
  · rfl
  · decide

/-- C3 (amended): a failing read is not propagated: the entry contributes the
single line `Error reading <path>: <msg>` in place of its whole block, and
every preceding and following file contributes exactly the output it would
have contributed anyway. -/
theorem C3_read_failure_single_line (gs1 gs2 : List (List FPath)) (pre post : List FPath)
    (fp : FPath) (rf : FPath → Except String String) (e : String)
    (h : rf fp = .error e) :
    create_aggregated_file (gs1 ++ (pre ++ fp :: post) :: gs2) rf =
      create_aggregated_file (gs1 ++ [pre]) rf ++
        (("Error reading " ++ pathStr fp ++ ": " ++ e ++ "\n") ++
          create_aggregated_file (post :: gs2) rf) := by
  rw [create_aggregated_file_decomp]
  rw [show entry_block rf fp = "Error reading " ++ pathStr fp ++ ": " ++ e ++ "\n" by
    rw [entry_block, h]]

/-- Witness for the amended C3 with a one-file group whose read fails. -/
theorem C3_read_failure_single_line_witness :
    ((fun _ : FPath => (.error "boom" : Except String String)) ["x.py"] =
        .error "boom") ∧
      create_aggregated_file ([] ++ ([] ++ ["x.py"] :: []) :: [])
          (fun _ => .error "boom") =
        create_aggregated_file ([] ++ [[]]) (fun _ => .error "boom") ++
          (("Error reading " ++ pathStr ["x.py"] ++ ": " ++ "boom" ++ "\n") ++
            create_aggregated_file ([] :: []) (fun _ => .error "boom")) :=
  ⟨rfl, C3_read_failure_single_line [] [] [] [] ["x.py"] _ "boom" rfl⟩

/-- C4: exclusion completeness.  Any path that passes through a directory
whose name is in the Exclusion Set — at any depth — is neither selected for
the content section nor shown as a leaf of the rendered tree, regardless of
its type-pattern match. -/
theorem C4_exclusion_completeness (cwd base : FPath) (fs : Option FS) (t : FS)
    (file_types : List String) (excl : List FPath) (fps : List FPath)
    (p q r : FPath) (d : String) (hd : d ∈ EXCLUDED_DIRS) (hp : p = q ++ d :: r) :
    p ∉ (search_files cwd base fs file_types excl).flatten ∧
      p ∉ tree_files cwd fps base t := by
  have hex : has_excluded_dir cwd p EXCLUDED_DIRS = true := by
    rw [hp]; exact has_excluded_dir_of_seg cwd q r d hd
  constructor
  · intro hmem
    have := flatten_not_excluded cwd base fs file_types excl p hmem
    rw [hex] at this
    exact absurd this (by simp)
  · intro hmem
    have := tree_files_not_excluded cwd fps t base p hmem
    rw [hex] at this
    exact absurd this (by simp)

/-- Witness for C4: `/b/.git/x.py` is neither selected nor rendered. -/
theorem C4_exclusion_completeness_witness :
    (".git" ∈ EXCLUDED_DIRS) ∧
      ((["", "b", ".git", "x.py"] : FPath) = ["", "b"] ++ ".git" :: ["x.py"]) ∧
      ((["", "b", ".git", "x.py"] : FPath) ∉
          (search_files ["", "c"] ["", "b"]
            (some (.dir [(".git", .dir [("x.py", .file (.ok "1"))])])) ["py"] []).flatten ∧
        (["", "b", ".git", "x.py"] : FPath) ∉
          tree_files ["", "c"] [["", "b", ".git", "x.py"]] ["", "b"]
            (.dir [(".git", .dir [("x.py", .file (.ok "1"))])])) :=
  ⟨by decide, by decide,
    C4_exclusion_completeness ["", "c"] ["", "b"]
      (some (.dir [(".git", .dir [("x.py", .file (.ok "1"))])]))
      (.dir [(".git", .dir [("x.py", .file (.ok "1"))])]) ["py"] []
      [["", "b", ".git", "x.py"]] ["", "b", ".git", "x.py"] ["", "b"] ["x.py"] ".git"
      (by decide) (by decide)⟩

/-- C5 (counterexample): self-exclusion is by literal string comparison, not
by resolved path.  With working directory `/home/u`, a relative base path
`proj` and the script at `proj/pc.py` (resolved: `/home/u/proj/pc.py`), the
walk spells the script's path `proj/pc.py`, which differs from the absolute
spelling stored in `exclude_files` — so the program's own source IS selected,
refuting "never included ... for every way of spelling those paths". -/
theorem C5_counterexample :
    mainAllFiles ⟨["", "home", "u"], some ["proj"], some ["py"], none, ["proj", "pc.py"]⟩
        (some (.dir [("pc.py", .file (.ok "print()"))])) = [["proj", "pc.py"]] ∧
      abspath ["", "home", "u"] ["proj", "pc.py"] =
        scriptFile ⟨["", "home", "u"], some ["proj"], some ["py"], none, ["proj", "pc.py"]⟩ := by
  constructor
  · simp [mainAllFiles, mainGroups, mainDirectory, mainTypes, mainOutput, scriptFile,
      mainExcludeFiles, search_files, walkOf, osWalk, osWalkList, rootStep, fileStep,
      fileNames, has_excluded_dir, abspath, isAbsolute, EXCLUDED_DIRS, matchesType,
      sortPaths, insertSorted, FS.isDir, List.contains]
  · decide

/-- C5 (amended): the two paths of the exclude list — the output artifact
path and the resolved script path — are never selected UNDER THOSE EXACT
SPELLINGS: the selector compares the joined walk path to the exclude list by
literal equality, without resolving, so only the identical spelling is
guaranteed to be excluded. -/
theorem C5_literal_exclusion (cfg : Config) (fs : Option FS) :
    mainOutput cfg ∉ mainAllFiles cfg fs ∧ scriptFile cfg ∉ mainAllFiles cfg fs := by
  constructor
  · intro hmem
    have h := flatten_not_in_exclude cfg.cwd (mainDirectory cfg) fs (mainTypes cfg)
      (mainExcludeFiles cfg) (mainOutput cfg) hmem
    have h2 : (mainExcludeFiles cfg).contains (mainOutput cfg) = true :=
      List.elem_iff.mpr (show mainOutput cfg ∈ mainExcludeFiles cfg by
        rw [mainExcludeFiles]; simp)
    rw [h] at h2
    exact absurd h2 (by simp)
  · intro hmem
    have h := flatten_not_in_exclude cfg.cwd (mainDirectory cfg) fs (mainTypes cfg)
      (mainExcludeFiles cfg) (scriptFile cfg) hmem
    have h2 : (mainExcludeFiles cfg).contains (scriptFile cfg) = true :=
      List.elem_iff.mpr (show scriptFile cfg ∈ mainExcludeFiles cfg by
        rw [mainExcludeFiles]; simp)
    rw [h] at h2
    exact absurd h2 (by simp)

/-- C6: for every selected file whose read succeeds, the content section
contains exactly the block: a 60-dash delimiter line, `File Path = <path>`,
`File Name = <basename>`, a blank line, and the file's content with a
trailing newline; and the structure-section header uses the same 60-dash
delimiter width. -/
theorem C6_block_format (gs1 gs2 : List (List FPath)) (pre post : List FPath)
    (fp : FPath) (rf : FPath → Except String String) (content : String)
    (cwd : FPath) (fps : List FPath) (base : FPath) (t : FS)
    (h : rf fp = .ok content) :
    create_aggregated_file (gs1 ++ (pre ++ fp :: post) :: gs2) rf =
      create_aggregated_file (gs1 ++ [pre]) rf ++
        ((dashes 60 ++ "\n" ++ "File Path = " ++ pathStr fp ++ "\n" ++
            "File Name = " ++ basename fp ++ "\n\n" ++ content ++ "\n") ++
          create_aggregated_file (post :: gs2) rf) ∧
      append_directory_structure cwd fps base t =
        dashes 60 ++ "\n" ++ "Directory Structure\n" ++ walk_dir cwd fps base t "" := by
  constructor
  · rw [create_aggregated_file_decomp]
    rw [show entry_block rf fp =
        dashes 60 ++ "\n" ++ "File Path = " ++ pathStr fp ++ "\n" ++
          "File Name = " ++ basename fp ++ "\n\n" ++ content ++ "\n" by
      rw [entry_block, h]]
  · rfl

/-- Witness for C6 with a one-file group whose read succeeds. -/
theorem C6_block_format_witness :
    ((fun _ : FPath => (.ok "x=1" : Except String String)) ["", "b", "a.py"] = .ok "x=1") ∧
      (create_aggregated_file ([] ++ ([] ++ ["", "b", "a.py"] :: []) :: [])
            (fun _ => .ok "x=1") =
          create_aggregated_file ([] ++ [[]]) (fun _ => .ok "x=1") ++
            ((dashes 60 ++ "\n" ++ "File Path = " ++ pathStr ["", "b", "a.py"] ++ "\n" ++
                "File Name = " ++ basename ["", "b", "a.py"] ++ "\n\n" ++ "x=1" ++ "\n") ++
              create_aggregated_file ([] :: []) (fun _ => .ok "x=1")) ∧
        append_directory_structure ["", "c"] [["", "b", "a.py"]] ["", "b"]
            (.dir [("a.py", .file (.ok "x=1"))]) =
          dashes 60 ++ "\n" ++ "Directory Structure\n" ++
            walk_dir ["", "c"] [["", "b", "a.py"]] ["", "b"]
              (.dir [("a.py", .file (.ok "x=1"))]) "") :=
  ⟨rfl, C6_block_format [] [] [] [] ["", "b", "a.py"] _ "x=1" ["", "c"]
    [["", "b", "a.py"]] ["", "b"] (.dir [("a.py", .file (.ok "x=1"))]) rfl⟩

/-- C7: tree/content membership equivalence — a path is a file leaf of the
rendered tree (walked with the selected set) iff it is one of the files
dumped in the content section (the flattened selection), for every base
directory tree and configuration. -/
theorem C7_tree_content_equivalence (cwd base : FPath) (t : FS)
    (file_types : List String) (excl : List FPath) (p : FPath) :
    p ∈ tree_files cwd ((search_files cwd base (some t) file_types excl).flatten) base t ↔
      p ∈ (search_files cwd base (some t) file_types excl).flatten := by
  constructor
  · intro h
    exact List.elem_iff.mp (tree_files_subset cwd _ t base p h)
  · intro h
    have hc : ((search_files cwd base (some t) file_types excl).flatten).contains p = true :=
      List.elem_iff.mpr h
    rw [search_files_flatten_mem] at h
    obtain ⟨i, hi, hmem⟩ := h
    rw [search_files_mem_getD _ _ _ _ _ i hi] at hmem
    obtain ⟨rf, hrf, hexr, f, hf, hpe, hni, hnd, hm⟩ := hmem
    obtain ⟨root, files⟩ := rf
    rw [walkOf] at hrf
    subst hpe
    exact mem_tree_files_of_walk cwd _ t base root files f hrf hf hnd hc

/-- C8: if the base directory's own absolute path passes through an excluded
directory name, every `os.walk` root is excluded too, so every selector group
is empty; and every direct entry of the base directory is excluded as well,
so the tree rendering emits no entry lines at all. -/
theorem C8_base_under_excluded (cwd base : FPath) (t : FS) (file_types : List String)
    (excl : List FPath) (fps : List FPath) (pref : String)
    (hbase : has_excluded_dir cwd base EXCLUDED_DIRS = true) (hne : base ≠ []) :
    (∀ g ∈ search_files cwd base (some t) file_types excl, g = []) ∧
      walk_dir cwd fps base t pref = "" := by
  constructor
  · intro g hg
    obtain ⟨i, hlen, rfl⟩ := List.mem_iff_getElem.mp hg
    have hi : i < file_types.length := by
      rw [search_files_length] at hlen
      exact hlen
    rw [show (search_files cwd base (some t) file_types excl)[i] =
        (search_files cwd base (some t) file_types excl).getD i [] from
      (List.getD_eq_getElem _ _ hlen).symm]
    rw [List.eq_nil_iff_forall_not_mem]
    intro p hp
    rw [search_files_mem_getD _ _ _ _ _ i hi] at hp
    obtain ⟨rf, hrf, hexr, _⟩ := hp
    rw [walkOf] at hrf
    obtain ⟨rel, hrel⟩ := osWalk_root_extends t base rf hrf
    have : has_excluded_dir cwd rf.1 EXCLUDED_DIRS = true := by
      rw [hrel]
      exact has_excluded_dir_append cwd base rel hne hbase
    rw [this] at hexr
    exact absurd hexr (by simp)
  · match t with
    | .file c => simp [walk_dir]
    | .dir es =>
      apply walk_dir_dir_eq_empty
      intro e he
      rw [keepEntry]
      have : has_excluded_dir cwd (base ++ [e.1]) EXCLUDED_DIRS = true :=
        has_excluded_dir_append cwd base [e.1] hne hbase
      rw [this]
      rfl

/-- Witness for C8 at the base path `/x/.git/repo`. -/
theorem C8_base_under_excluded_witness :
    has_excluded_dir ["", "c"] ["", "x", ".git", "repo"] EXCLUDED_DIRS = true ∧
      (["", "x", ".git", "repo"] : FPath) ≠ [] ∧
      ((∀ g ∈ search_files ["", "c"] ["", "x", ".git", "repo"]
          (some (.dir [("a.py", .file (.ok "1"))])) ["py"] [], g = []) ∧
        walk_dir ["", "c"] [] ["", "x", ".git", "repo"]
          (.dir [("a.py", .file (.ok "1"))]) "" = "") :=
  ⟨by decide, by decide,
    C8_base_under_excluded ["", "c"] ["", "x", ".git", "repo"]
      (.dir [("a.py", .file (.ok "1"))]) ["py"] [] [] "" (by decide) (by decide)⟩

/-- C9: when the selector selects nothing, the artifact is still created and
holds exactly the structure section (60-dash delimiter, `Directory Structure`
line, and the tree rendered with the empty selected set), and the
confirmation line naming the output path is still printed. -/
theorem C9_empty_selection (cfg : Config) (es : List (String × FS))
    (rf : FPath → Except String String)
    (h : mainAllFiles cfg (some (.dir es)) = []) :
    runMain cfg (some (.dir es)) rf =
      .ok (structureHeader ++ walk_dir cfg.cwd [] (mainDirectory cfg) (.dir es) "")
        ("Aggregated file created at " ++ pathStr (mainOutput cfg)) := by
  have hgroups : ∀ g ∈ mainGroups cfg (some (.dir es)), g = [] :=
    List.flatten_eq_nil_iff.mp h
  rw [runMain]
  rw [create_aggregated_file_all_nil hgroups, String.empty_append,
    append_directory_structure, h]

/-- Witness for C9 with an empty base directory. -/
theorem C9_empty_selection_witness :
    mainAllFiles ⟨["", "h"], none, some ["py"], none, ["", "h", "pc.py"]⟩
        (some (.dir [])) = [] ∧
      runMain ⟨["", "h"], none, some ["py"], none, ["", "h", "pc.py"]⟩ (some (.dir []))
          (fun _ => .ok "") =
        .ok (structureHeader ++
            walk_dir ["", "h"] []
              (mainDirectory ⟨["", "h"], none, some ["py"], none, ["", "h", "pc.py"]⟩)
              (.dir []) "")
          ("Aggregated file created at " ++
            pathStr (mainOutput ⟨["", "h"], none, some ["py"], none, ["", "h", "pc.py"]⟩)) := by
  have h : mainAllFiles ⟨["", "h"], none, some ["py"], none, ["", "h", "pc.py"]⟩
      (some (.dir [])) = [] := by
    simp [mainAllFiles, mainGroups, mainDirectory, mainTypes, search_files, walkOf,
      osWalk, osWalkList, rootStep, fileNames, has_excluded_dir, abspath, isAbsolute,
      EXCLUDED_DIRS, sortPaths]
  exact ⟨h, C9_empty_selection _ [] _ h⟩

/-- C10: on every finite directory tree both recursive walks terminate — with
any fuel exceeding the tree height, the fuel-bounded selection walk and the
fuel-bounded tree renderer return a result (rather than running out), and it
is the value of the corresponding total function. -/
theorem C10_termination (fuel : Nat) (t : FS) (cwd p : FPath) (fps : List FPath)
    (pref : String) (h : FS.height t < fuel) :
    osWalkF fuel p t = some (osWalk p t) ∧
      walkDirF fuel cwd fps p t pref = some (walk_dir cwd fps p t pref) :=
  ⟨osWalkF_eq fuel t p h, walkDirF_eq fuel t cwd fps p pref h⟩

/-- Witness for C10 on a two-level tree with fuel 2. -/
theorem C10_termination_witness :
    FS.height (.dir [("a.py", .file (.ok "1"))]) < 2 ∧
      (osWalkF 2 ["", "b"] (.dir [("a.py", .file (.ok "1"))]) =
          some (osWalk ["", "b"] (.dir [("a.py", .file (.ok "1"))])) ∧
        walkDirF 2 ["", "c"] [] ["", "b"] (.dir [("a.py", .file (.ok "1"))]) "" =
          some (walk_dir ["", "c"] [] ["", "b"] (.dir [("a.py", .file (.ok "1"))]) "")) := by
  have h : FS.height (.dir [("a.py", .file (.ok "1"))]) < 2 := by
    simp [FS.height, heightList]
  exact ⟨h, C10_termination 2 _ ["", "c"] ["", "b"] [] "" h⟩
